import Mathlib

/-!
Verification of the DocNexus dynamic plugin runtime.

This file gives a shallow embedding, in Lean 4, of the plugin runtime of the
DocNexus repository (`docnexus/features/registry.py` and
`docnexus/core/loader.py`) and proves the behavioural claims of the
specification against it.

Modelling conventions:

* Python handler callables are abstracted by a type parameter `H`: the
  orchestrator never calls a handler, it only stores and returns them, so the
  embedding is polymorphic in the handler payload.  `Pipeline.run` is the one
  place a handler is invoked; there handlers are `String → Option String`,
  with `none` standing for "the call raised an exception".
* Python's `meta` dictionary is embedded as a record of the keys the runtime
  reads (`installed`, `extension`, `plugin_id`, `preinstalled`); a missing key
  is `none` (resp. `false` for `preinstalled`, whose only read supplies the
  default `False`).
* Objects held by the registry are modelled as `Feature` values, i.e. objects
  that pass `refresh`'s duck-typing test (`hasattr name/type/handler`); the
  runtime ignores anything else.  A Python object may additionally carry a
  `plugin_id` *attribute* (read by `get_sort_key` via
  `getattr(p, 'plugin_id', getattr(p, 'name', ''))`); the field
  `attr_plugin_id` records that attribute, and is `none` for objects built by
  the `Feature.__init__` of the source, which never sets it.
* In-place mutation (`plugins.sort(...)` on the list returned by
  `get_all_plugins`, and `plugin.meta['installed'] = ...` on objects shared
  between the registry list and the orchestrator's feature list) is embedded
  by explicit state passing: `refresh` returns the updated manager, whose
  registry component carries the reordered and rewritten plugin list.
-/

namespace DocNexus

/-- Lifecycle state of a capability (`FeatureState` in the source). -/
inductive FeatureState where
  | STANDARD
  | EXPERIMENTAL
deriving DecidableEq

/-- Capability type (`FeatureType` in the source). -/
inductive FeatureType where
  | ALGORITHM
  | UI_EXTENSION
  | EXPORT_HANDLER
deriving DecidableEq

/-- The keys of a capability's `meta` dictionary that the runtime reads.
A key absent from the dictionary is `none`; `preinstalled` is read only
through `meta.get('preinstalled', False)`, so it is embedded with the default
applied. -/
structure FeatureMeta where
  installed : Option Bool
  extension : Option String
  plugin_id : Option String
  preinstalled : Bool
deriving DecidableEq

/-- A capability descriptor (`Feature` in `docnexus/features/registry.py`),
together with the optional `plugin_id` Python *attribute* consulted by
`get_sort_key`.  `Feature.__init__` sets only `name`, `handler`, `state`,
`type` and `meta`, so objects it builds have `attr_plugin_id = none`. -/
structure Feature (H : Type) where
  name : String
  handler : H
  state : FeatureState
  type : FeatureType
  meta : FeatureMeta
  attr_plugin_id : Option String
deriving DecidableEq

/-- A pipeline (`Pipeline` in the source): a name and an ordered list of
steps. -/
structure Pipeline (H : Type) where
  name : String
  steps : List H
deriving DecidableEq

/-- `Pipeline.add_step`: appends a handler to the step list. -/
def Pipeline.add_step {H : Type} (p : Pipeline H) (handler : H) : Pipeline H :=
  { p with steps := p.steps ++ [handler] }

/-- A pipeline step when actually executed: the content transformer, with
`none` standing for the call raising an exception. -/
def PStep : Type := String → Option String

/-- `Pipeline.run`: folds the content through each step in order; a step that
raises (`none`) is caught by the `try/except` of the source and the content
entering that step passes through unchanged.  Totality of this function is
the embedding of "`run` never propagates a step's exception". -/
def Pipeline.run (p : Pipeline PStep) (content : String) : String :=
  p.steps.foldl
    (fun c step =>
      match step c with
      | some c2 => c2
      | none => c)
    content

/-- The plugin registry (`PluginRegistry` in `docnexus/features/registry.py`),
restricted to the `_plugins` list; the UI-slot map and the blueprint list are
not consulted by any claim. -/
structure PluginRegistry (H : Type) where
  plugins : List (Feature H)
deriving DecidableEq

/-- `PluginRegistry.register`: appends unless already present
(`if plugin_or_feature not in self._plugins`). -/
def PluginRegistry.register {H : Type} [DecidableEq H] (r : PluginRegistry H)
    (p : Feature H) : PluginRegistry H :=
  if p ∈ r.plugins then r else { r with plugins := r.plugins ++ [p] }

/-- `PluginRegistry.get_all_plugins`: returns the stored list itself. -/
def PluginRegistry.get_all_plugins {H : Type} (r : PluginRegistry H) :
    List (Feature H) :=
  r.plugins

/-- Modelled from the spec: the Persisted Enablement Store
(`PluginState` in `docnexus/core/state.py`, which is not part of the source
tree; only its callers are).  Per §3 of the spec it is "a durable set of
which optional extensions are user-enabled" with membership queries. -/
structure PluginState where
  enabled_ids : List String
deriving DecidableEq

/-- Modelled from the spec: `PluginState.is_plugin_installed` "checks the
set" (comment at `registry.py:189`; spec §4.5 `is_enabled(identifier)`), i.e.
membership of the identifier in the enabled set. -/
def PluginState.is_plugin_installed (s : PluginState) (pid : String) : Bool :=
  s.enabled_ids.contains pid

/-- The feature manager (`FeatureManager` in the source): the active feature
list `_features` and the optionally attached registry `_registry`. -/
structure FeatureManager (H : Type) where
  features : List (Feature H)
  registry : Option (PluginRegistry H)

/-- `FeatureManager.register`: manual (core-feature) registration, a plain
append to the active list. -/
def FeatureManager.register {H : Type} (m : FeatureManager H)
    (feature : Feature H) : FeatureManager H :=
  { m with features := m.features ++ [feature] }

/-- Python truthiness of an optional string (`meta.get('plugin_id')` is used
as `if plugin_id and ...`): `None` and the empty string are falsy. -/
def pyTruthyStr : Option String → Bool
  | none => false
  | some s => !(s == "")

/-- The name `get_sort_key` compares against the priority list:
`getattr(p, 'plugin_id', getattr(p, 'name', ''))`, i.e. the object's
`plugin_id` attribute when present, else its `name`. -/
def sortName {H : Type} (p : Feature H) : String :=
  p.attr_plugin_id.getD p.name

/-- The sort key of `FeatureManager.refresh`: members of the priority list
get `index + 1000`, everything else `0`, so that listed plugins are moved to
the end by the stable sort. -/
def get_sort_key {H : Type} (priority_list : List String) (p : Feature H) :
    Nat :=
  if priority_list.contains (sortName p) then
    priority_list.indexOf (sortName p) + 1000
  else 0

/-- Stable insertion of `x` into a list: `x` is placed before the first
element of strictly larger key, hence after every element of equal key. -/
def insertByKey {α : Type} (k : α → Nat) (x : α) : List α → List α
  | [] => [x]
  | y :: ys => if k x < k y then x :: y :: ys else y :: insertByKey k x ys

/-- Stable sort by a natural-number key, embedding Python's stable
`list.sort(key=...)`: a stable sort is determined uniquely by key and input
order, so insertion sort is an exact model of Timsort here. -/
def sortByKey {α : Type} (k : α → Nat) (l : List α) : List α :=
  l.foldl (fun acc x => insertByKey k x acc) []

/-- The state check of `refresh` (`registry.py:180-198`): when the capability
carries a truthy `plugin_id` in its metadata, a state object is present and
the capability is not preinstalled, its `installed` metadata is overwritten
with the Enablement Store's verdict; otherwise the object is untouched. -/
def stateCheck {H : Type} (state : Option PluginState) (p : Feature H) :
    Feature H :=
  if pyTruthyStr p.meta.plugin_id && state.isSome && !p.meta.preinstalled then
    match state, p.meta.plugin_id with
    | some st, some pid =>
      if !(st.is_plugin_installed pid) then
        { p with meta := { p.meta with installed := some false } }
      else
        { p with meta := { p.meta with installed := some true } }
    | _, _ => p
  else p

/-- The priority-sorting stage of `refresh` (`registry.py:154-165`): a truthy
(`non-None`, non-empty) priority list triggers the in-place stable sort by
`get_sort_key`; otherwise the list is left as it is. -/
def prioritized {H : Type} (priority_list : Option (List String))
    (plugins : List (Feature H)) : List (Feature H) :=
  match priority_list with
  | some pl => if pl.isEmpty then plugins else sortByKey (get_sort_key pl) plugins
  | none => plugins

/-- Replace the first element whose `name` equals `p.name` by `p`, keeping
its position (`self._features[existing_idx] = plugin`). -/
def replaceFirstByName {H : Type} (p : Feature H) :
    List (Feature H) → List (Feature H)
  | [] => []
  | f :: fs =>
    if f.name == p.name then p :: fs else f :: replaceFirstByName p fs

/-- One iteration of the reconciliation loop body (`registry.py:200-209`):
replace in place if a feature of the same name is already active, else
append. -/
def processFeature {H : Type} (features : List (Feature H)) (p : Feature H) :
    List (Feature H) :=
  if features.any (fun f => f.name == p.name) then
    replaceFirstByName p features
  else features ++ [p]

/-- `FeatureManager.refresh` (`registry.py:142-215`).  The active list is
cleared, and when a registry is attached its plugin list is (for a truthy
priority list) stably sorted in place by `get_sort_key`, each plugin's
`installed` metadata is synchronized with the Enablement Store, and the
active list is rebuilt with in-place-by-name deduplication.  `state` is the
ambient `PluginState` singleton (`none` embeds the `ImportError` fallback);
the returned manager's registry component reflects the in-place sort and the
metadata writes, which act on the very objects the registry holds. -/
def FeatureManager.refresh {H : Type} (m : FeatureManager H)
    (state : Option PluginState) (priority_list : Option (List String)) :
    FeatureManager H :=
  match m.registry with
  | none => { m with features := [] }
  | some reg =>
    let checked :=
      (prioritized priority_list reg.get_all_plugins).map (stateCheck state)
    { m with
      features := checked.foldl processFeature []
      registry := some { plugins := checked } }

/-- `FeatureManager.is_feature_installed`: the `installed` metadata key with
default `True` (the method reads no state from `self`). -/
def is_feature_installed {H : Type} (feature : Feature H) : Bool :=
  feature.meta.installed.getD true

/-- The `str(feature.type)` rendering used by `get_export_handler`. -/
def ftStr : FeatureType → String
  | .ALGORITHM => "FeatureType.ALGORITHM"
  | .UI_EXTENSION => "FeatureType.UI_EXTENSION"
  | .EXPORT_HANDLER => "FeatureType.EXPORT_HANDLER"

/-- Whether the pattern is an initial segment of the character list. -/
def beginsWith : List Char → List Char → Bool
  | [], _ => true
  | _ :: _, [] => false
  | c :: cs, d :: ds => (c == d) && beginsWith cs ds

/-- Whether the pattern occurs as a contiguous run of the character list. -/
def occursIn (pat : List Char) : List Char → Bool
  | [] => pat.isEmpty
  | c :: cs => beginsWith pat (c :: cs) || occursIn pat cs

/-- Python's `sub in s` substring test, at the character level. -/
def strContainsSub (s sub : String) : Bool :=
  occursIn sub.data s.data

/-- The type test of `get_export_handler`:
`"EXPORT_HANDLER" in str(feature.type)`. -/
def isExportType {H : Type} (f : Feature H) : Bool :=
  strContainsSub (ftStr f.type) "EXPORT_HANDLER"

/-- The match test of `get_export_handler`: the `extension` metadata equals
the token, else the name equals the token or the token with `"_export"`
appended. -/
def exportMatch {H : Type} (f : Feature H) (format_ext : String) : Bool :=
  (f.meta.extension == some format_ext) || (f.name == format_ext) ||
    (f.name == format_ext ++ "_export")

/-- The scanning loop of `get_export_handler` (`registry.py:242-269`): skip
non-export features; at the first matching export feature return its handler
if installed and `None` (stop searching) otherwise; `None` when the list is
exhausted. -/
def findExportHandler {H : Type} (format_ext : String) :
    List (Feature H) → Option H
  | [] => none
  | f :: fs =>
    if isExportType f then
      if exportMatch f format_ext then
        if is_feature_installed f then some f.handler else none
      else findExportHandler format_ext fs
    else findExportHandler format_ext fs

/-- `FeatureManager.get_export_handler`. -/
def FeatureManager.get_export_handler {H : Type} (m : FeatureManager H)
    (format_ext : String) : Option H :=
  findExportHandler format_ext m.features

/-- The loop body of `build_pipeline` (`registry.py:280-291`): skip features
that are not ALGORITHM or not installed; add STANDARD handlers, and
EXPERIMENTAL handlers when the experimental flag is set. -/
def buildStep {H : Type} (enable_experimental : Bool) (pipeline : Pipeline H)
    (f : Feature H) : Pipeline H :=
  if f.type != FeatureType.ALGORITHM then pipeline
  else if !(is_feature_installed f) then pipeline
  else if f.state == FeatureState.STANDARD then pipeline.add_step f.handler
  else if enable_experimental && (f.state == FeatureState.EXPERIMENTAL) then
    pipeline.add_step f.handler
  else pipeline

/-- `FeatureManager.build_pipeline` (`registry.py:271-293`): a fresh pipeline
named `"StandardPipeline"` accumulating, in active-set order, the handlers of
installed ALGORITHM features — STANDARD ones unconditionally, EXPERIMENTAL
ones only under `enable_experimental`. -/
def FeatureManager.build_pipeline {H : Type} (m : FeatureManager H)
    (enable_experimental : Bool) : Pipeline H :=
  m.features.foldl (buildStep enable_experimental)
    { name := "StandardPipeline", steps := [] }

/-- A descriptor returned by a plugin's `get_features`: either a capability
whose registration succeeds, or one whose registration call raises (caught by
the inner per-descriptor handler at `loader.py:139-144`). -/
inductive FeatureDesc (H : Type) where
  | ok (f : Feature H)
  | registerRaises

/-- The observable behaviour of executing one candidate extension's
`get_features` attribute, as the loader sees it: the attribute may be absent
(`noattr`), the call may raise (`raisesExc`, caught by the outer handler of
`load_single_plugin`), or it may return a list of descriptors. -/
inductive GetFeaturesResult (H : Type) where
  | noattr
  | raisesExc
  | returns (descs : List (FeatureDesc H))

/-- The observable behaviour of executing one candidate extension's entry
file, as the loader sees it: either `exec_module` raises, or the module
executes and exposes (or not) a `get_features` function.  Exceptions are data
in this embedding, since arbitrary Python execution is outside it. -/
structure PluginModule (H : Type) where
  exec_raises : Bool
  get_features : GetFeaturesResult H

/-- The registry the loader actually uses (`loader.py:116`):
`registry_instance if registry_instance else PluginRegistry()` — the
explicitly passed instance when given, else the process-wide singleton. -/
def actualRegistry {H : Type} (registry_instance : Option (PluginRegistry H))
    (singleton : PluginRegistry H) : PluginRegistry H :=
  match registry_instance with
  | some r => r
  | none => singleton

/-- The binding injected into the plugin module's namespace
(`module.PluginRegistry = lambda: actual_registry`, `loader.py:124`):
a zero-argument constructor that returns the loader's registry. -/
def injectedPluginRegistry {H : Type}
    (registry_instance : Option (PluginRegistry H))
    (singleton : PluginRegistry H) : Unit → PluginRegistry H :=
  fun _ => actualRegistry registry_instance singleton

/-- The per-descriptor registration loop of `load_single_plugin`
(`loader.py:137-144`): each descriptor is registered under its own
`try/except`, so one raising registration skips only that descriptor. -/
def registerFeatures {H : Type} [DecidableEq H] (reg : PluginRegistry H)
    (descs : List (FeatureDesc H)) : PluginRegistry H :=
  descs.foldl
    (fun acc d =>
      match d with
      | .ok f => acc.register f
      | .registerRaises => acc)
    reg

/-- `load_single_plugin` acting on the resolved registry: the whole body sits
in one `try/except`, so a raising entry file (or a raising `get_features`)
leaves the registry as it was; otherwise the returned descriptors are
registered one by one.  Totality embeds "never propagates to the caller". -/
def load_single_plugin_on {H : Type} [DecidableEq H] (mod : PluginModule H)
    (reg : PluginRegistry H) : PluginRegistry H :=
  if mod.exec_raises then reg
  else
    match mod.get_features with
    | .noattr => reg
    | .raisesExc => reg
    | .returns descs => registerFeatures reg descs

/-- `load_single_plugin` (`loader.py:94-161`), resolving the registry first. -/
def load_single_plugin {H : Type} [DecidableEq H] (mod : PluginModule H)
    (registry_instance : Option (PluginRegistry H))
    (singleton : PluginRegistry H) : PluginRegistry H :=
  load_single_plugin_on mod (actualRegistry registry_instance singleton)

/-- `load_plugins_from_path` (`loader.py:68-92`): the candidate extensions of
a scanned directory (subdirectories containing the entry file), loaded in
order through `load_single_plugin` against one shared registry. -/
def load_plugins_from_path {H : Type} [DecidableEq H]
    (mods : List (PluginModule H))
    (registry_instance : Option (PluginRegistry H))
    (singleton : PluginRegistry H) : PluginRegistry H :=
  mods.foldl (fun acc mod => load_single_plugin_on mod acc)
    (actualRegistry registry_instance singleton)

/-- The predicate `build_pipeline`'s loop implements: ALGORITHM type,
effectively installed, and STANDARD — or EXPERIMENTAL with the experimental
flag set. -/
def pipelineIncludes {H : Type} (enable_experimental : Bool) (f : Feature H) :
    Bool :=
  (f.type == FeatureType.ALGORITHM) && is_feature_installed f &&
    ((f.state == FeatureState.STANDARD) ||
      (enable_experimental && (f.state == FeatureState.EXPERIMENTAL)))

/-- A feature `get_export_handler` would stop at: export-typed and matching
the format token. -/
def exportCandidate {H : Type} (f : Feature H) (format_ext : String) : Bool :=
  isExportType f && exportMatch f format_ext

/-- The priority groups of the specification's ordering (spec §4.3 step 2),
written from the spec's words: for each position `i` of the priority list in
turn, the capabilities whose compared identifier sits at position `i`, in
original relative order. -/
def priorityGroups {H : Type} (pl : List String) (l : List (Feature H)) :
    Nat → List (Feature H)
  | 0 => []
  | m + 1 =>
    priorityGroups pl l m ++
      l.filter (fun p => pl.contains (sortName p) &&
        (pl.indexOf (sortName p) == m))

/-- The specification's priority order, written from the spec's words
(§4.3 step 2): capabilities whose compared identifier is not mentioned keep
their original relative order and come first; the mentioned ones follow, in
the order given by the priority list, original order within a group. -/
def specPrioritySort {H : Type} (pl : List String) (l : List (Feature H)) :
    List (Feature H) :=
  l.filter (fun p => !(pl.contains (sortName p))) ++
    priorityGroups pl l pl.length

/-- Reference layering of a keyed stable sort: the elements of key `0`, then
those of key `1`, and so on — each layer in original relative order. -/
def specSortLayers {α : Type} (k : α → Nat) (l : List α) : Nat → List α
  | 0 => []
  | n + 1 => specSortLayers k l n ++ l.filter (fun x => k x == n)

/-- Concrete capability: name `"A"`, owned (via `meta['plugin_id']`) by
extension `"X"`. -/
def featA : Feature Nat :=
  ⟨"A", 1, .STANDARD, .ALGORITHM, ⟨some true, none, some "X", false⟩, none⟩

/-- Concrete capability: name `"B"`, owned by extension `"Y"`. -/
def featB : Feature Nat :=
  ⟨"B", 2, .STANDARD, .ALGORITHM, ⟨some true, none, some "Y", false⟩, none⟩

/-- Concrete capability: name `"C"`, owned by extension `"X"`. -/
def featC : Feature Nat :=
  ⟨"C", 3, .STANDARD, .ALGORITHM, ⟨some true, none, some "X", false⟩, none⟩

/-- Concrete capability owned by the non-preinstalled extension `"ext1"`,
with static metadata `installed: true`. -/
def featGated : Feature Nat :=
  ⟨"toc", 4, .STANDARD, .ALGORITHM, ⟨some true, none, some "ext1", false⟩, none⟩

/-- `featGated` after a reconciliation under an Enablement Store that does
not list `"ext1"`: the `installed` metadata forced to `false`. -/
def featGatedChecked : Feature Nat :=
  ⟨"toc", 4, .STANDARD, .ALGORITHM, ⟨some false, none, some "ext1", false⟩, none⟩

/-- The export-handler scenario capability of spec §8:
`("pdf_export", meta={extension:"pdf", installed:false})`. -/
def pdfFeature : Feature Nat :=
  ⟨"pdf_export", 7, .EXPERIMENTAL, .EXPORT_HANDLER,
    ⟨some false, some "pdf", none, false⟩, none⟩

/-- Concrete capability named `"n"` (first registration). -/
def featN1 : Feature Nat := ⟨"n", 1, .STANDARD, .ALGORITHM, ⟨none, none, none, false⟩, none⟩

/-- Concrete capability named `"m"`. -/
def featM : Feature Nat := ⟨"m", 2, .STANDARD, .ALGORITHM, ⟨none, none, none, false⟩, none⟩

/-- Concrete capability named `"n"` (second registration, new handler). -/
def featN2 : Feature Nat := ⟨"n", 3, .STANDARD, .ALGORITHM, ⟨none, none, none, false⟩, none⟩

/-- Concrete capability named `"x"`. -/
def featX : Feature Nat := ⟨"x", 5, .STANDARD, .ALGORITHM, ⟨none, none, none, false⟩, none⟩

/-- Concrete capability named `"y"`. -/
def featY : Feature Nat := ⟨"y", 6, .STANDARD, .ALGORITHM, ⟨none, none, none, false⟩, none⟩

/-- Manager over a registry holding `[A(ext=X), B(ext=Y), C(ext=X)]` — the
configuration of testable property P5. -/
def mgrP5 : FeatureManager Nat := ⟨[], some ⟨[featA, featB, featC]⟩⟩

/-- An Enablement Store with an empty enabled set. -/
def stEmpty : PluginState := ⟨[]⟩

/-- Manager over a registry holding only the gated capability. -/
def mgrGate : FeatureManager Nat := ⟨[], some ⟨[featGated]⟩⟩

/-- Manager whose active set holds the uninstalled pdf export handler. -/
def mgrPdf : FeatureManager Nat := ⟨[pdfFeature], none⟩

/-- Manager over a registry holding the first registration of `"n"` and the
unrelated `"m"`. -/
def mgrDedup : FeatureManager Nat := ⟨[], some ⟨[featN1, featM]⟩⟩

/-- Manager over a registry holding `"x"` then `"y"`. -/
def mgrXY : FeatureManager Nat := ⟨[], some ⟨[featX, featY]⟩⟩

/-- The manager after the first reconciliation over `[featN1, featM]`, with
its registry then extended by a reload registering `featN2` (same name as
`featN1`, new handler) — the state just before the second reconciliation. -/
def mgrDedupReloaded : FeatureManager Nat :=
  { mgrDedup.refresh none none with
    registry := some (PluginRegistry.register ⟨[featN1, featM]⟩ featN2) }

/-- Manager over a registry holding two same-named capabilities. -/
def mgrPair : FeatureManager Nat := ⟨[], some ⟨[featN1, featN2]⟩⟩

/-- A well-behaved extension module returning one capability. -/
def modOkA : PluginModule Nat := ⟨false, .returns [.ok featA]⟩

/-- An extension module whose entry file raises at import time. -/
def modRaising : PluginModule Nat := ⟨true, .noattr⟩

/-- A second well-behaved extension module. -/
def modOkB : PluginModule Nat := ⟨false, .returns [.ok featB]⟩

/-- An extension module one of whose descriptors fails to register. -/
def modMixed : PluginModule Nat :=
  ⟨false, .returns [.ok featA, .registerRaises, .ok featB]⟩

/-- Character-wise uppercasing, the embedding of Python's `str.upper` used
as a concrete pipeline step. -/
def upcase (s : String) : String := ⟨s.data.map Char.toUpper⟩

/-- An empty registry instance. -/
def regEmpty : PluginRegistry Nat := ⟨[]⟩

/-- A distinct registry standing for the process-wide singleton. -/
def regSingletonInst : PluginRegistry Nat := ⟨[featM]⟩

/-! ## Helper lemmas -/

/-- The loop body of `build_pipeline` is the conditional append governed by
`pipelineIncludes`. -/
theorem buildStep_eq {H : Type} (e : Bool) (p : Pipeline H) (f : Feature H) :
    buildStep e p f =
      if pipelineIncludes e f then p.add_step f.handler else p := by
  obtain ⟨n, h, st, ty, mt, ap⟩ := f
  by_cases hi : is_feature_installed ⟨n, h, st, ty, mt, ap⟩ <;>
    cases st <;> cases ty <;> cases e <;>
    simp [buildStep, pipelineIncludes, hi]

/-- Unrolling of `build_pipeline`'s loop over an arbitrary initial pipeline:
it appends exactly the handlers of the features selected by
`pipelineIncludes`, in order. -/
theorem build_pipeline_foldl {H : Type} (e : Bool) (l : List (Feature H))
    (p : Pipeline H) :
    l.foldl (buildStep e) p
    = { name := p.name
        steps := p.steps ++ (l.filter (pipelineIncludes e)).map (fun f => f.handler) } := by
  induction l generalizing p with
  | nil => simp
  | cons f fs ih =>
    rw [List.foldl_cons, buildStep_eq]
    by_cases hf : pipelineIncludes e f <;>
      simp [hf, ih, Pipeline.add_step, List.filter_cons]

/-- If no feature of the list is an export-typed match for the token, the
scan returns `none`. -/
theorem findExportHandler_no_match {H : Type} (ext : String)
    (l : List (Feature H)) (h : ∀ f ∈ l, exportCandidate f ext = false) :
    findExportHandler ext l = none := by
  induction l with
  | nil => rfl
  | cons f fs ih =>
    have hf := h f (by simp)
    have hfs : ∀ g ∈ fs, exportCandidate g ext = false := fun g hg =>
      h g (by simp [hg])
    unfold findExportHandler
    rcases Bool.and_eq_false_iff.mp (by simpa [exportCandidate] using hf) with he | hm
    · simp [he, ih hfs]
    · by_cases he2 : isExportType f <;> simp [he2, hm, ih hfs]

/-- The scan stops at the first export-typed match: its handler when it is
installed, `none` otherwise — independent of what follows it. -/
theorem findExportHandler_first {H : Type} (ext : String)
    (pre : List (Feature H)) (f : Feature H) (post : List (Feature H))
    (hpre : ∀ g ∈ pre, exportCandidate g ext = false)
    (hf : exportCandidate f ext = true) :
    findExportHandler ext (pre ++ f :: post) =
      if is_feature_installed f then some f.handler else none := by
  induction pre with
  | nil =>
    rcases Bool.and_eq_true_iff.mp (by simpa [exportCandidate] using hf) with ⟨he, hm⟩
    simp [findExportHandler, he, hm]
  | cons g pre ih =>
    have hg := hpre g (by simp)
    have hpre2 : ∀ g2 ∈ pre, exportCandidate g2 ext = false := fun g2 hg2 =>
      hpre g2 (by simp [hg2])
    rcases Bool.and_eq_false_iff.mp (by simpa [exportCandidate] using hg) with he | hm
    · simp [findExportHandler, he, ih hpre2]
    · by_cases he2 : isExportType g <;> simp [findExportHandler, he2, hm, ih hpre2]

/-- A handler returned by the scan belongs to an installed matching feature
of the scanned list. -/
theorem findExportHandler_some {H : Type} {ext : String}
    {l : List (Feature H)} {hdl : H}
    (h : findExportHandler ext l = some hdl) :
    ∃ f ∈ l, is_feature_installed f = true ∧ f.handler = hdl ∧
      exportCandidate f ext = true := by
  induction l with
  | nil => simp [findExportHandler] at h
  | cons f fs ih =>
    by_cases he : isExportType f
    · by_cases hm : exportMatch f ext
      · by_cases hi : is_feature_installed f
        · refine ⟨f, by simp, hi, ?_, by simp [exportCandidate, he, hm]⟩
          have : some f.handler = some hdl := by
            simpa [findExportHandler, he, hm, hi] using h
          simpa using this
        · simp [findExportHandler, he, hm, hi] at h
      · have h2 : findExportHandler ext fs = some hdl := by
          simpa [findExportHandler, he, hm] using h
        obtain ⟨g, hg, rest⟩ := ih h2
        exact ⟨g, by simp [hg], rest⟩
    · have h2 : findExportHandler ext fs = some hdl := by
        simpa [findExportHandler, he] using h
      obtain ⟨g, hg, rest⟩ := ih h2
      exact ⟨g, by simp [hg], rest⟩

/-- Elements of a name-replacement come from the original list or are the
replacement itself. -/
theorem mem_replaceFirstByName {H : Type} {g p : Feature H} :
    ∀ (l : List (Feature H)), g ∈ replaceFirstByName p l → g ∈ l ∨ g = p := by
  intro l
  induction l with
  | nil => intro h; simp [replaceFirstByName] at h
  | cons f fs ih =>
    intro h
    by_cases hn : f.name == p.name
    · rw [replaceFirstByName, if_pos hn] at h
      rcases List.mem_cons.mp h with h | h
      · exact Or.inr h
      · exact Or.inl (List.mem_cons_of_mem _ h)
    · rw [replaceFirstByName, if_neg hn] at h
      rcases List.mem_cons.mp h with h | h
      · exact Or.inl (by simp [h])
      · rcases ih h with h2 | h2
        · exact Or.inl (List.mem_cons_of_mem _ h2)
        · exact Or.inr h2

/-- Elements after one reconciliation-loop step come from the accumulator or
are the processed plugin. -/
theorem mem_processFeature {H : Type} {g p : Feature H}
    {acc : List (Feature H)} (h : g ∈ processFeature acc p) :
    g ∈ acc ∨ g = p := by
  unfold processFeature at h
  by_cases ha : acc.any (fun f => f.name == p.name)
  · rw [if_pos ha] at h
    exact mem_replaceFirstByName acc h
  · rw [if_neg ha] at h
    rcases List.mem_append.mp h with h | h
    · exact Or.inl h
    · exact Or.inr (by simpa using h)

/-- Elements of the reconciliation loop's result come from the initial
accumulator or from the processed plugin list. -/
theorem mem_foldl_processFeature {H : Type} {g : Feature H} :
    ∀ (l acc : List (Feature H)), g ∈ l.foldl processFeature acc →
      g ∈ acc ∨ g ∈ l := by
  intro l
  induction l with
  | nil => intro acc h; exact Or.inl (by simpa using h)
  | cons p ps ih =>
    intro acc h
    rw [List.foldl_cons] at h
    rcases ih (processFeature acc p) h with h2 | h2
    · rcases mem_processFeature h2 with h3 | h3
      · exact Or.inl h3
      · exact Or.inr (by simp [h3])
    · exact Or.inr (by simp [h2])

/-- Elements of an insertion are the inserted element or original elements. -/
theorem mem_insertByKey {α : Type} {k : α → Nat} {x y : α} :
    ∀ (l : List α), y ∈ insertByKey k x l → y = x ∨ y ∈ l := by
  intro l
  induction l with
  | nil =>
    intro h
    exact Or.inl (by simpa [insertByKey] using h)
  | cons z zs ih =>
    intro h
    by_cases hk : k x < k z
    · rw [insertByKey, if_pos hk] at h
      rcases List.mem_cons.mp h with h | h
      · exact Or.inl h
      · exact Or.inr h
    · rw [insertByKey, if_neg hk] at h
      rcases List.mem_cons.mp h with h | h
      · exact Or.inr (by simp [h])
      · rcases ih h with h2 | h2
        · exact Or.inl h2
        · exact Or.inr (by simp [h2])

/-- Elements of the stable sort come from the sorted list. -/
theorem mem_sortByKey {α : Type} {k : α → Nat} {y : α} :
    ∀ (l : List α), y ∈ sortByKey k l → y ∈ l := by
  have key : ∀ (l acc : List α),
      y ∈ l.foldl (fun acc x => insertByKey k x acc) acc →
        y ∈ acc ∨ y ∈ l := by
    intro l
    induction l with
    | nil => intro acc h; exact Or.inl (by simpa using h)
    | cons x xs ih =>
      intro acc h
      rw [List.foldl_cons] at h
      rcases ih (insertByKey k x acc) h with h2 | h2
      · rcases mem_insertByKey acc h2 with h3 | h3
        · exact Or.inr (by simp [h3])
        · exact Or.inl h3
      · exact Or.inr (by simp [h2])
  intro l h
  rcases key l [] h with h2 | h2
  · simp at h2
  · exact h2

/-- Elements of the prioritized plugin order come from the registry list. -/
theorem mem_prioritized {H : Type} {y : Feature H}
    {pl : Option (List String)} {plugins : List (Feature H)}
    (h : y ∈ prioritized pl plugins) : y ∈ plugins := by
  rcases pl with _ | l
  · simpa [prioritized] using h
  · by_cases he : l.isEmpty
    · simpa [prioritized, he] using h
    · have h2 : y ∈ sortByKey (get_sort_key l) plugins := by
        simpa [prioritized, he] using h
      exact mem_sortByKey _ h2

/-- The state check only rewrites the `installed` metadata: every other
field, and in particular the name, handler, lifecycle state, type, owner
identifier and preinstalled mark, is unchanged. -/
theorem stateCheck_fields {H : Type} (st : Option PluginState)
    (p : Feature H) :
    (stateCheck st p).name = p.name ∧
    (stateCheck st p).handler = p.handler ∧
    (stateCheck st p).state = p.state ∧
    (stateCheck st p).type = p.type ∧
    (stateCheck st p).meta.extension = p.meta.extension ∧
    (stateCheck st p).meta.plugin_id = p.meta.plugin_id ∧
    (stateCheck st p).meta.preinstalled = p.meta.preinstalled ∧
    (stateCheck st p).attr_plugin_id = p.attr_plugin_id := by
  unfold stateCheck
  split
  · split
    · split <;> simp
    · simp
  · simp

/-- A capability with a real (non-empty) owning-extension identifier, not
preinstalled and absent from the enabled set, leaves the state check with
`installed` forced to `false`. -/
theorem stateCheck_gated {H : Type} (st : PluginState) (p : Feature H)
    {pid : String} (hpid : p.meta.plugin_id = some pid) (hne : pid ≠ "")
    (hpre : p.meta.preinstalled = false)
    (hnot : st.is_plugin_installed pid = false) :
    (stateCheck (some st) p).meta.installed = some false := by
  simp [stateCheck, pyTruthyStr, hpid, hne, hpre, hnot]

/-- A preinstalled capability passes the state check untouched. -/
theorem stateCheck_preinstalled_id {H : Type} (st : Option PluginState)
    (p : Feature H) (hpre : p.meta.preinstalled = true) : stateCheck st p = p := by
  simp [stateCheck, hpre]

/-- With no Enablement Store available (the `ImportError` fallback), the
state check is the identity. -/
theorem stateCheck_none {H : Type} (p : Feature H) : stateCheck none p = p := by
  simp [stateCheck]

/-- With no registry attached, `refresh` only clears the active list. -/
theorem refresh_of_registry_none {H : Type} (m : FeatureManager H)
    (st : Option PluginState) (pl : Option (List String))
    (h : m.registry = none) :
    m.refresh st pl = { m with features := [] } := by
  unfold FeatureManager.refresh
  rw [h]

/-- The active list produced by `refresh` over an attached registry. -/
theorem refresh_features_of_some {H : Type} (m : FeatureManager H)
    (reg : PluginRegistry H) (st : Option PluginState)
    (pl : Option (List String)) (h : m.registry = some reg) :
    (m.refresh st pl).features =
      ((prioritized pl reg.plugins).map (stateCheck st)).foldl
        processFeature [] := by
  unfold FeatureManager.refresh
  rw [h]
  rfl

/-- The registry contents after `refresh` over an attached registry: the
prioritized order of the very plugin objects, with their `installed`
metadata rewritten by the state check. -/
theorem refresh_registry_of_some {H : Type} (m : FeatureManager H)
    (reg : PluginRegistry H) (st : Option PluginState)
    (pl : Option (List String)) (h : m.registry = some reg) :
    (m.refresh st pl).registry =
      some ⟨(prioritized pl reg.plugins).map (stateCheck st)⟩ := by
  unfold FeatureManager.refresh
  rw [h]
  rfl

/-- Every feature active after a `refresh` over an attached registry is a
state-checked plugin of that registry. -/
theorem mem_refresh_features {H : Type} {m : FeatureManager H}
    {reg : PluginRegistry H} {st : Option PluginState}
    {pl : Option (List String)} (h : m.registry = some reg)
    {f : Feature H} (hf : f ∈ (m.refresh st pl).features) :
    ∃ p ∈ reg.plugins, f = stateCheck st p := by
  rw [refresh_features_of_some m reg st pl h] at hf
  rcases mem_foldl_processFeature _ _ hf with h2 | h2
  · simp at h2
  · rcases List.mem_map.mp h2 with ⟨p, hp, hpe⟩
    exact ⟨p, mem_prioritized hp, hpe.symm⟩

/-- Replacing the first feature of a given name leaves the name sequence of
the active list unchanged, provided some feature of that name is present. -/
theorem map_name_replaceFirstByName {H : Type} (p : Feature H) :
    ∀ (l : List (Feature H)), l.any (fun f => f.name == p.name) = true →
      (replaceFirstByName p l).map (fun f => f.name) =
        l.map (fun f => f.name) := by
  intro l
  induction l with
  | nil => intro h; simp at h
  | cons f fs ih =>
    intro h
    by_cases hn : f.name == p.name
    · rw [replaceFirstByName, if_pos hn]
      simp [eq_of_beq hn]
    · rw [replaceFirstByName, if_neg hn]
      have h2 : fs.any (fun f => f.name == p.name) = true := by
        rcases List.any_eq_true.mp h with ⟨g, hg, hgp⟩
        rcases List.mem_cons.mp hg with rfl | hg2
        · exact absurd hgp hn
        · exact List.any_eq_true.mpr ⟨g, hg2, hgp⟩
      simp [ih h2]

/-- One reconciliation-loop step keeps the active names duplicate-free. -/
theorem nodup_names_processFeature {H : Type} (acc : List (Feature H))
    (p : Feature H) (h : (acc.map (fun f => f.name)).Nodup) :
    ((processFeature acc p).map (fun f => f.name)).Nodup := by
  unfold processFeature
  by_cases ha : acc.any (fun f => f.name == p.name)
  · rw [if_pos ha, map_name_replaceFirstByName p acc ha]
    exact h
  · rw [if_neg ha]
    have hnot : p.name ∉ acc.map (fun f => f.name) := by
      intro hmem
      rcases List.mem_map.mp hmem with ⟨g, hg, hgp⟩
      exact ha (List.any_eq_true.mpr ⟨g, hg, by simp [hgp]⟩)
    rw [List.map_append]
    refine List.Nodup.append h (by simp) ?_
    intro a ha2 hb
    have hape : a = p.name := by simpa using hb
    exact hnot (hape ▸ ha2)

/-- The reconciliation loop keeps the active names duplicate-free. -/
theorem nodup_names_foldl_processFeature {H : Type} :
    ∀ (l acc : List (Feature H)), (acc.map (fun f => f.name)).Nodup →
      ((l.foldl processFeature acc).map (fun f => f.name)).Nodup := by
  intro l
  induction l with
  | nil => intro acc h; simpa using h
  | cons p ps ih =>
    intro acc h
    rw [List.foldl_cons]
    exact ih _ (nodup_names_processFeature acc p h)

/-- Processing a feature whose name is new to the active list appends it. -/
theorem processFeature_fresh {H : Type} (acc : List (Feature H))
    (p : Feature H) (h : ∀ f ∈ acc, f.name ≠ p.name) :
    processFeature acc p = acc ++ [p] := by
  unfold processFeature
  rw [if_neg]
  intro hc
  rcases List.any_eq_true.mp hc with ⟨g, hg, hgp⟩
  exact h g hg (eq_of_beq hgp)

/-- Processing a run of features with fresh, pairwise-distinct names appends
them in order. -/
theorem foldl_processFeature_fresh {H : Type} :
    ∀ (l acc : List (Feature H)),
      (∀ f ∈ acc, ∀ p ∈ l, f.name ≠ p.name) →
      (l.map (fun f => f.name)).Nodup →
      l.foldl processFeature acc = acc ++ l := by
  intro l
  induction l with
  | nil => intro acc _ _; simp
  | cons p ps ih =>
    intro acc hdisj hnodup
    rw [List.foldl_cons,
      processFeature_fresh acc p (fun f hf => hdisj f hf p (by simp))]
    have hpn : p.name ∉ ps.map (fun f => f.name) := by
      have := hnodup
      rw [List.map_cons, List.nodup_cons] at this
      exact this.1
    have hdisj2 : ∀ f ∈ acc ++ [p], ∀ q ∈ ps, f.name ≠ q.name := by
      intro f hf q hq
      rcases List.mem_append.mp hf with hf2 | hf2
      · exact hdisj f hf2 q (by simp [hq])
      · have hfp : f = p := by simpa using hf2
        subst hfp
        intro hcontra
        exact hpn (List.mem_map.mpr ⟨q, hq, hcontra.symm⟩)
    have hnodup2 : (ps.map (fun f => f.name)).Nodup := by
      have := hnodup
      rw [List.map_cons, List.nodup_cons] at this
      exact this.2
    rw [ih (acc ++ [p]) hdisj2 hnodup2]
    simp

/-- Replacing by name in a list whose head carries the name swaps in the new
feature at the head position. -/
theorem replaceFirstByName_cons_eq {H : Type} (p f : Feature H)
    (fs : List (Feature H)) (h : f.name = p.name) :
    replaceFirstByName p (f :: fs) = p :: fs := by
  rw [replaceFirstByName, if_pos (by simp [h])]

/-- The layered sort of the empty list is empty. -/
theorem specSortLayers_nil {α : Type} (k : α → Nat) :
    ∀ n, specSortLayers k [] n = [] := by
  intro n
  induction n with
  | zero => rfl
  | succ n ih => rw [specSortLayers, ih]; rfl

/-- Elements of the first `n` layers have key below `n`. -/
theorem key_lt_of_mem_specSortLayers {α : Type} (k : α → Nat) (l : List α) :
    ∀ n y, y ∈ specSortLayers k l n → k y < n := by
  intro n
  induction n with
  | zero => intro y h; simp [specSortLayers] at h
  | succ n ih =>
    intro y h
    rw [specSortLayers] at h
    rcases List.mem_append.mp h with h | h
    · exact Nat.lt_succ_of_lt (ih y h)
    · have h2 : k y = n := by simpa using List.of_mem_filter h
      omega

/-- Inserting an element no smaller (by key) than anything present lands at
the end. -/
theorem insertByKey_at_end {α : Type} (k : α → Nat) (x : α) :
    ∀ (l : List α), (∀ y ∈ l, ¬ k x < k y) → insertByKey k x l = l ++ [x] := by
  intro l
  induction l with
  | nil => intro _; rfl
  | cons z zs ih =>
    intro h
    rw [insertByKey, if_neg (h z (by simp)), ih (fun y hy => h y (by simp [hy]))]
    rfl

/-- Insertion below a strictly larger-keyed tail happens in the prefix. -/
theorem insertByKey_append_high {α : Type} (k : α → Nat) (x : α) :
    ∀ (A B : List α), (∀ y ∈ B, k x < k y) →
      insertByKey k x (A ++ B) = insertByKey k x A ++ B := by
  intro A
  induction A with
  | nil =>
    intro B h
    cases B with
    | nil => rfl
    | cons b bs =>
      simp only [List.nil_append]
      unfold insertByKey
      simp [h b (by simp)]
  | cons a as ih =>
    intro B h
    simp only [List.cons_append]
    unfold insertByKey
    by_cases hk : k x < k a
    · simp [hk]
    · simp only [if_neg hk]
      rw [ih B h]
      simp

/-- Appending an element whose key is at least `n` does not change the first
`n` layers. -/
theorem specSortLayers_append_of_ge {α : Type} (k : α → Nat) (x : α)
    (l : List α) :
    ∀ n, n ≤ k x → specSortLayers k (l ++ [x]) n = specSortLayers k l n := by
  intro n
  induction n with
  | zero => intro _; rfl
  | succ n ih =>
    intro h
    rw [specSortLayers, specSortLayers, ih (by omega), List.filter_append]
    have hx : List.filter (fun y => k y == n) [x] = [] := by
      simp
      omega
    rw [hx, List.append_nil]

/-- Key step: inserting `x` into the layered sort of `l` gives the layered
sort of `l ++ [x]`, provided `x`'s key is covered by the layers. -/
theorem insertByKey_specSortLayers {α : Type} (k : α → Nat) (x : α)
    (l : List α) :
    ∀ n, k x < n →
      insertByKey k x (specSortLayers k l n) = specSortLayers k (l ++ [x]) n := by
  intro n
  induction n with
  | zero => intro h; omega
  | succ n ih =>
    intro h
    rw [specSortLayers]
    by_cases hx : k x = n
    · rw [insertByKey_at_end]
      · rw [specSortLayers, specSortLayers_append_of_ge k x l n (by omega),
          List.filter_append]
        have hfx : List.filter (fun y => k y == n) [x] = [x] := by simp [hx]
        rw [hfx]
        simp
      · intro y hy
        rcases List.mem_append.mp hy with hy | hy
        · have := key_lt_of_mem_specSortLayers k l n y hy
          omega
        · have h2 : k y = n := by simpa using List.of_mem_filter hy
          omega
    · have hxn : k x < n := by omega
      rw [insertByKey_append_high]
      · rw [ih hxn, specSortLayers, List.filter_append]
        have hfx : List.filter (fun y => k y == n) [x] = [] := by
          simp
          omega
        rw [hfx, List.append_nil]
      · intro y hy
        have h2 : k y = n := by simpa using List.of_mem_filter hy
        omega

/-- The insertion sort of `sortByKey` computes the layered stable sort, for
any layer count covering every key. -/
theorem sortByKey_eq_layers {α : Type} (k : α → Nat) :
    ∀ (l : List α) (n : Nat), (∀ x ∈ l, k x < n) →
      sortByKey k l = specSortLayers k l n := by
  have loop : ∀ (rest done : List α) (n : Nat), (∀ x ∈ rest, k x < n) →
      rest.foldl (fun acc x => insertByKey k x acc) (specSortLayers k done n) =
      specSortLayers k (done ++ rest) n := by
    intro rest
    induction rest with
    | nil => intro done n _; simp
    | cons x xs ih =>
      intro done n h
      rw [List.foldl_cons, insertByKey_specSortLayers k x done n (h x (by simp))]
      have h2 := ih (done ++ [x]) n (fun y hy => h y (by simp [hy]))
      rw [h2]
      simp
  intro l n h
  have h2 := loop l [] n h
  rw [specSortLayers_nil] at h2
  simpa [sortByKey] using h2

/-- Every sort key is below `1000 + pl.length`. -/
theorem get_sort_key_lt {H : Type} (pl : List String) (p : Feature H) :
    get_sort_key pl p < 1000 + pl.length := by
  unfold get_sort_key
  by_cases hc : pl.contains (sortName p)
  · rw [if_pos hc]
    have hm : sortName p ∈ pl := by simpa using hc
    have := List.indexOf_lt_length.mpr hm
    omega
  · rw [if_neg hc]
    omega

/-- A sort key is zero (unlisted) or at least `1000` (listed). -/
theorem get_sort_key_zero_or_ge {H : Type} (pl : List String) (p : Feature H) :
    get_sort_key pl p = 0 ∨ 1000 ≤ get_sort_key pl p := by
  unfold get_sort_key
  by_cases hm : sortName p ∈ pl
  · right
    rw [if_pos (show pl.contains (sortName p) = true by simpa using hm)]
    omega
  · left
    rw [if_neg (show ¬ pl.contains (sortName p) = true by simpa using hm)]

/-- For layer counts between `1` and `1000`, the layered sort collapses to
the unlisted capabilities in original order. -/
theorem specSortLayers_low {H : Type} (pl : List String)
    (l : List (Feature H)) :
    ∀ m, 0 < m → m ≤ 1000 →
      specSortLayers (get_sort_key pl) l m =
        l.filter (fun p => get_sort_key pl p == 0) := by
  intro m
  induction m with
  | zero => intro h _; omega
  | succ m ih =>
    intro _ h2
    rw [specSortLayers]
    by_cases hm : m = 0
    · subst hm
      simp [specSortLayers]
    · rw [ih (by omega) (by omega)]
      have hempty : l.filter (fun p => get_sort_key pl p == m) = [] := by
        rw [List.filter_eq_nil_iff]
        intro p _
        rcases get_sort_key_zero_or_ge pl p with h | h <;> simp <;> omega
      rw [hempty, List.append_nil]

/-- Key zero is exactly "compared identifier not in the priority list". -/
theorem filter_key_zero {H : Type} (pl : List String) (l : List (Feature H)) :
    l.filter (fun p => get_sort_key pl p == 0) =
      l.filter (fun p => !(pl.contains (sortName p))) := by
  apply List.filter_congr
  intro p _
  unfold get_sort_key
  by_cases hm : sortName p ∈ pl
  · have hct : pl.contains (sortName p) = true := by simpa using hm
    rw [if_pos hct, hct]
    simp only [Bool.not_true]
    rw [beq_eq_false_iff_ne]
    omega
  · have hcf : pl.contains (sortName p) = false := by simpa using hm
    rw [if_neg (by rw [hcf]; simp), hcf]
    simp

/-- Beyond the first `1000` layers, each further layer is the priority group
of the corresponding priority-list position. -/
theorem specSortLayers_high {H : Type} (pl : List String)
    (l : List (Feature H)) :
    ∀ m, specSortLayers (get_sort_key pl) l (1000 + m) =
      l.filter (fun p => !(pl.contains (sortName p))) ++ priorityGroups pl l m := by
  intro m
  induction m with
  | zero =>
    rw [specSortLayers_low pl l 1000 (by omega) (by omega), filter_key_zero]
    simp [priorityGroups]
  | succ m ih =>
    have harith : 1000 + (m + 1) = (1000 + m) + 1 := by omega
    rw [harith, specSortLayers, ih, priorityGroups, List.append_assoc]
    congr 1
    congr 1
    apply List.filter_congr
    intro p _
    unfold get_sort_key
    by_cases hm2 : sortName p ∈ pl
    · have hct : pl.contains (sortName p) = true := by simpa using hm2
      rw [if_pos hct, hct]
      simp only [Bool.true_and]
      by_cases him : pl.indexOf (sortName p) = m
      · rw [him, show m + 1000 = 1000 + m by omega]
        simp
      · have h1 : (pl.indexOf (sortName p) + 1000 == 1000 + m) = false := by
          rw [beq_eq_false_iff_ne]
          omega
        have h2 : (pl.indexOf (sortName p) == m) = false := by
          rw [beq_eq_false_iff_ne]
          exact him
        rw [h1, h2]
    · have hcf : pl.contains (sortName p) = false := by simpa using hm2
      rw [if_neg (by rw [hcf]; simp), hcf]
      simp only [Bool.false_and]
      rw [beq_eq_false_iff_ne]
      omega

/-- The in-place stable sort of `refresh` realizes exactly the spec-side
priority order: unlisted capabilities first in original order, then the
listed ones grouped by priority-list position. -/
theorem sortByKey_spec {H : Type} (pl : List String) (l : List (Feature H)) :
    sortByKey (get_sort_key pl) l = specPrioritySort pl l := by
  rw [sortByKey_eq_layers (get_sort_key pl) l (1000 + pl.length)
    (fun x _ => get_sort_key_lt pl x)]
  rw [specSortLayers_high]
  rfl

/-! ## Claim theorems -/

/-- C3: `Pipeline.run` folds the content through each step in order; a step
that raises is treated as identity (the content entering it passes through
unchanged) and execution continues with the remaining steps — `run` is a
total function, so no step exception ever reaches the caller.  In
particular, the pipeline `[identity, raises, uppercase]` run on `"a"`
produces `"A"`. -/
theorem C3_pipeline_fault_tolerance :
    (∀ (nm : String) (step : PStep) (rest : List PStep) (c : String),
      step c = none →
      Pipeline.run ⟨nm, step :: rest⟩ c = Pipeline.run ⟨nm, rest⟩ c)
    ∧ (∀ (nm : String) (step : PStep) (rest : List PStep) (c c2 : String),
      step c = some c2 →
      Pipeline.run ⟨nm, step :: rest⟩ c = Pipeline.run ⟨nm, rest⟩ c2)
    ∧ Pipeline.run ⟨"StandardPipeline",
        [fun s => some s, fun _ => none, fun s => some (upcase s)]⟩ "a" = "A" := by
  refine ⟨?_, ?_, ?_⟩
  · intro nm step rest c h
    simp [Pipeline.run, h]
  · intro nm step rest c c2 h
    simp [Pipeline.run, h]
  · rfl

/-- Witness for C3: a pipeline whose only step raises returns its input
unchanged. -/
theorem C3_pipeline_fault_tolerance_witness :
    Pipeline.run ⟨"P", [fun _ => none]⟩ "abc" = "abc" := by
  have h := C3_pipeline_fault_tolerance.1 "P" (fun _ => none) [] "abc" rfl
  exact h.trans rfl

/-- C4: `build_pipeline` returns a fresh `"StandardPipeline"` pipeline whose
steps are exactly the handlers of the active capabilities of type ALGORITHM
with effective `installed = true` — STANDARD-lifecycle ones unconditionally,
EXPERIMENTAL-lifecycle ones exactly when `enable_experimental` is set — in
active-set order. -/
theorem C4_build_pipeline_steps {H : Type} (m : FeatureManager H) (e : Bool) :
    (m.build_pipeline e).steps =
      (m.features.filter (fun f =>
        (f.type == FeatureType.ALGORITHM) && is_feature_installed f &&
          ((f.state == FeatureState.STANDARD) ||
            (e && (f.state == FeatureState.EXPERIMENTAL))))).map
        (fun f => f.handler)
    ∧ (m.build_pipeline e).name = "StandardPipeline" := by
  unfold FeatureManager.build_pipeline
  rw [build_pipeline_foldl]
  exact ⟨rfl, rfl⟩

/-- C5: `get_export_handler` scans the active list in order for the first
export-typed capability matching the token (metadata `extension` equal to
the token, falling back to name equality with the token or the token
followed by `"_export"`); it returns that first match's handler exactly when
the match is effectively installed, and `none` immediately otherwise —
whatever capabilities follow; with no match at all it returns `none`.
Totality of the scan embeds "never raises". -/
theorem C5_get_export_handler_first_match {H : Type} (m : FeatureManager H)
    (ext : String) :
    ((∀ f ∈ m.features, exportCandidate f ext = false) →
      m.get_export_handler ext = none)
    ∧ (∀ (pre : List (Feature H)) (f : Feature H) (post : List (Feature H)),
        m.features = pre ++ f :: post →
        (∀ g ∈ pre, exportCandidate g ext = false) →
        exportCandidate f ext = true →
        m.get_export_handler ext =
          if is_feature_installed f then some f.handler else none) := by
  constructor
  · intro h
    exact findExportHandler_no_match ext m.features h
  · intro pre f post hsplit hpre hf
    unfold FeatureManager.get_export_handler
    rw [hsplit]
    exact findExportHandler_first ext pre f post hpre hf

/-- Witness for C5 — the spec §8 scenario: an uninstalled
`pdf_export` handler with `extension: "pdf"` makes
`get_export_handler "pdf"` return "not found". -/
theorem C5_get_export_handler_first_match_witness :
    mgrPdf.get_export_handler "pdf" = none := by
  have h := (C5_get_export_handler_first_match mgrPdf "pdf").2 [] pdfFeature []
    rfl (by simp) (by decide)
  exact h.trans (by decide)

/-- C1: after a reconciliation under an available Enablement Store, every
active capability owned (via the `plugin_id` of its metadata, a real
non-empty identifier) by a non-preinstalled extension absent from the
enabled set has its effective `installed` forced to `false`; every step of a
built pipeline and every returned export handler comes from an effectively
installed active capability, so such a gated capability contributes to
neither; and a capability marked preinstalled survives reconciliation as the
very registry object, with whatever `installed` its metadata declared. -/
theorem C1_enablement_gating {H : Type} (m : FeatureManager H)
    (reg : PluginRegistry H) (st : PluginState) (pl : Option (List String))
    (hreg : m.registry = some reg) :
    (∀ f ∈ (m.refresh (some st) pl).features, ∀ pid : String,
      f.meta.plugin_id = some pid → pid ≠ "" →
      f.meta.preinstalled = false →
      st.is_plugin_installed pid = false →
      f.meta.installed = some false ∧ is_feature_installed f = false)
    ∧ (∀ (e : Bool) (hdl : H),
        hdl ∈ ((m.refresh (some st) pl).build_pipeline e).steps →
        ∃ f ∈ (m.refresh (some st) pl).features,
          is_feature_installed f = true ∧ f.type = FeatureType.ALGORITHM ∧
          f.handler = hdl)
    ∧ (∀ (ext : String) (hdl : H),
        (m.refresh (some st) pl).get_export_handler ext = some hdl →
        ∃ f ∈ (m.refresh (some st) pl).features,
          is_feature_installed f = true ∧ f.handler = hdl)
    ∧ (∀ f ∈ (m.refresh (some st) pl).features,
        f.meta.preinstalled = true → f ∈ reg.plugins) := by
  refine ⟨?_, ?_, ?_, ?_⟩
  · intro f hf pid hpid hne hpre hnot
    rcases mem_refresh_features hreg hf with ⟨p, hp, rfl⟩
    obtain ⟨-, -, -, -, -, hpid_eq, hpre_eq, -⟩ := stateCheck_fields (some st) p
    have h1 : (stateCheck (some st) p).meta.installed = some false :=
      stateCheck_gated st p (hpid_eq.symm.trans hpid) hne
        (hpre_eq.symm.trans hpre) hnot
    exact ⟨h1, by simp [is_feature_installed, h1]⟩
  · intro e hdl hmem
    unfold FeatureManager.build_pipeline at hmem
    rw [build_pipeline_foldl] at hmem
    simp only [List.nil_append] at hmem
    rcases List.mem_map.mp hmem with ⟨f, hf, rfl⟩
    have hf2 := List.mem_filter.mp hf
    have hinc := hf2.2
    simp only [pipelineIncludes, Bool.and_eq_true, Bool.or_eq_true,
      beq_iff_eq] at hinc
    exact ⟨f, hf2.1, hinc.1.2, hinc.1.1, rfl⟩
  · intro ext hdl h
    rcases findExportHandler_some h with ⟨f, hf, hi, hh, -⟩
    exact ⟨f, hf, hi, hh⟩
  · intro f hf hpre
    rcases mem_refresh_features hreg hf with ⟨p, hp, rfl⟩
    obtain ⟨-, -, -, -, -, -, hpre_eq, -⟩ := stateCheck_fields (some st) p
    rw [stateCheck_preinstalled_id (some st) p (hpre_eq.symm.trans hpre)]
    exact hp

/-- Witness for C1: the gated capability of `mgrGate` (owner `"ext1"`, not
preinstalled, absent from the empty enabled set, static `installed: true`)
comes out of reconciliation with `installed` forced to `false`. -/
theorem C1_enablement_gating_witness :
    featGatedChecked ∈ (mgrGate.refresh (some stEmpty) none).features ∧
    featGatedChecked.meta.installed = some false ∧
    is_feature_installed featGatedChecked = false := by
  have hmem : featGatedChecked ∈ (mgrGate.refresh (some stEmpty) none).features := by
    decide
  have h := (C1_enablement_gating mgrGate ⟨[featGated]⟩ stEmpty none rfl).1
    featGatedChecked hmem "ext1" rfl (by decide) rfl rfl
  exact ⟨hmem, h⟩

/-- Counterexample to C2 as stated: the reconciled order of
`[A(ext=X), B(ext=Y), C(ext=X)]` under priority order `[X]` is the unchanged
`[A, B, C]`, not the `[B, A, C]` the claim requires — `get_sort_key` compares
`getattr(p, 'plugin_id', getattr(p, 'name', ''))`, and capabilities built by
`Feature.__init__` carry no `plugin_id` attribute, so the capability *names*
`A`, `B`, `C` (never the owning extension identifiers in the metadata) are
matched against the priority list. -/
theorem C2_priority_sort_counterexample :
    ((mgrP5.refresh none (some ["X"])).features.map (fun f => f.name)
      = ["A", "B", "C"])
    ∧ ((mgrP5.refresh none (some ["X"])).features.map (fun f => f.name)
      ≠ ["B", "A", "C"]) := by
  constructor
  · decide
  · decide

/-- C2 amended: reconciliation stable-sorts by the object's `plugin_id`
attribute when present and its `name` otherwise, so capabilities whose
*compared identifier* (for `Feature` objects, the capability name) appears
in the priority list move to the end in the order given, while the rest keep
their original relative order and come first; concretely, capabilities named
`A`, `B`, `C` under priority order `[A, C]` reconcile to `B, A, C`. -/
theorem C2_priority_sort_amended {H : Type} :
    (∀ (pl : List String) (l : List (Feature H)),
      sortByKey (get_sort_key pl) l = specPrioritySort pl l)
    ∧ ((mgrP5.refresh none (some ["A", "C"])).features.map (fun f => f.name)
        = ["B", "A", "C"]) := by
  constructor
  · intro pl l
    exact sortByKey_spec pl l
  · decide

/-- The state check preserves the name sequence of a plugin list. -/
theorem map_name_stateCheck {H : Type} (st : Option PluginState)
    (l : List (Feature H)) :
    (l.map (stateCheck st)).map (fun f => f.name) = l.map (fun f => f.name) := by
  induction l with
  | nil => rfl
  | cons p ps ih =>
    simp only [List.map_cons, ih]
    rw [(stateCheck_fields st p).1]

/-- C6: reconciliation replaces an already-active feature of the same name
in place, at its original position, instead of appending a duplicate — so
active names are always duplicate-free (in particular among ALGORITHM
capabilities); with a registry holding a capability `p`, fresh distinct
names `ps`, and a later same-named capability `q`, the active set is `q` at
`p`'s original (first) position followed by `ps`; and after two successive
reconciliations whose second registry carries a same-named second
registration, exactly one active entry of that name remains, holding the
second handler at the first registration's position. -/
theorem C6_dedup_by_name {H : Type} :
    (∀ (m : FeatureManager H) (st : Option PluginState)
        (pl : Option (List String)),
      ((m.refresh st pl).features.map (fun f => f.name)).Nodup)
    ∧ (∀ (m : FeatureManager H) (reg : PluginRegistry H)
        (st : Option PluginState) (p q : Feature H) (ps : List (Feature H)),
        m.registry = some reg → reg.plugins = p :: ps ++ [q] →
        q.name = p.name →
        (ps.map (fun f => f.name)).Nodup →
        (∀ r ∈ ps, r.name ≠ p.name) →
        (m.refresh st none).features =
          stateCheck st q :: ps.map (stateCheck st))
    ∧ ((mgrDedupReloaded.refresh none none).features.map (fun f => f.handler)
        = [3, 2]
      ∧ (mgrDedupReloaded.refresh none none).features.map (fun f => f.name)
        = ["n", "m"]) := by
  refine ⟨?_, ?_, by decide, by decide⟩
  · intro m st pl
    rcases hr : m.registry with _ | reg
    · rw [refresh_of_registry_none m st pl hr]
      simp
    · rw [refresh_features_of_some m reg st pl hr]
      exact nodup_names_foldl_processFeature _ [] (by simp)
  · intro m reg st p q ps hreg hplugins hqp hnodup hfresh
    rw [refresh_features_of_some m reg st none hreg, hplugins]
    have hmap : prioritized none (p :: ps ++ [q]) = p :: ps ++ [q] := rfl
    rw [hmap]
    simp only [List.map_cons, List.map_append, List.map_nil]
    have hfold : (ps.map (stateCheck st)).foldl processFeature
        ([] ++ [stateCheck st p]) = [stateCheck st p] ++ ps.map (stateCheck st) := by
      rw [foldl_processFeature_fresh]
      · simp
      · intro f hf x hx
        have hfp : f = stateCheck st p := by simpa using hf
        rcases List.mem_map.mp hx with ⟨r, hr2, hrx⟩
        subst hfp
        rw [(stateCheck_fields st p).1, ← hrx, (stateCheck_fields st r).1]
        exact fun hc => hfresh r hr2 hc.symm
      · rw [map_name_stateCheck]
        exact hnodup
    have hinner : List.foldl processFeature ([] : List (Feature H))
        (stateCheck st p :: List.map (stateCheck st) ps) =
        [stateCheck st p] ++ ps.map (stateCheck st) := by
      rw [List.foldl_cons, processFeature_fresh [] (stateCheck st p) (by simp)]
      exact hfold
    rw [List.foldl_append, hinner, List.foldl_cons, List.foldl_nil]
    have hany : ([stateCheck st p] ++ ps.map (stateCheck st)).any
        (fun f => f.name == (stateCheck st q).name) = true := by
      refine List.any_eq_true.mpr ⟨stateCheck st p, by simp, ?_⟩
      rw [(stateCheck_fields st p).1, (stateCheck_fields st q).1]
      simp [hqp]
    rw [processFeature, if_pos hany]
    rw [List.singleton_append,
      replaceFirstByName_cons_eq (stateCheck st q) (stateCheck st p) _
        (by rw [(stateCheck_fields st p).1, (stateCheck_fields st q).1, hqp])]

/-- Witness for C6: over a registry holding `featN1` and then the same-named
`featN2`, reconciliation leaves exactly `[featN2]` — the second registration
at the first one's position. -/
theorem C6_dedup_by_name_witness :
    (mgrPair.refresh none none).features = [featN2] := by
  have h := (C6_dedup_by_name (H := Nat)).2.1 mgrPair ⟨[featN1, featN2]⟩ none
    featN1 featN2 [] rfl rfl rfl (by simp) (by simp)
  rw [h, stateCheck_none]
  rfl

/-- C7: every path of `load_single_plugin` sits under a `try/except`, so (i)
an extension whose entry file raises leaves the registry exactly as it was,
(ii) a raising extension anywhere in a directory scan changes nothing about
the scan's outcome — every other extension, before and after it, still loads
— and (iii) one descriptor whose registration raises is skipped without
aborting its extension's remaining descriptors.  Totality of the loader
functions embeds "the exception never propagates to the caller". -/
theorem C7_load_isolation {H : Type} [DecidableEq H] :
    (∀ (mod : PluginModule H) (reg : PluginRegistry H),
      mod.exec_raises = true → load_single_plugin_on mod reg = reg)
    ∧ (∀ (pre post : List (PluginModule H)) (bad : PluginModule H)
        (ri : Option (PluginRegistry H)) (s : PluginRegistry H),
        bad.exec_raises = true →
        load_plugins_from_path (pre ++ bad :: post) ri s =
          load_plugins_from_path (pre ++ post) ri s)
    ∧ (∀ (d1 d2 : List (FeatureDesc H)) (reg : PluginRegistry H),
        load_single_plugin_on ⟨false, .returns (d1 ++ .registerRaises :: d2)⟩ reg
          = load_single_plugin_on ⟨false, .returns (d1 ++ d2)⟩ reg) := by
  have part1 : ∀ (mod : PluginModule H) (reg : PluginRegistry H),
      mod.exec_raises = true → load_single_plugin_on mod reg = reg := by
    intro mod reg h
    unfold load_single_plugin_on
    rw [h]
    rfl
  refine ⟨part1, ?_, ?_⟩
  · intro pre post bad ri s hbad
    unfold load_plugins_from_path
    rw [List.foldl_append, List.foldl_cons, List.foldl_append,
      part1 bad _ hbad]
  · intro d1 d2 reg
    show registerFeatures reg (d1 ++ FeatureDesc.registerRaises :: d2) =
      registerFeatures reg (d1 ++ d2)
    unfold registerFeatures
    rw [List.foldl_append, List.foldl_cons, List.foldl_append]

/-- Witness for C7: a scan `[good, raising, good]` registers exactly what the
scan `[good, good]` registers. -/
theorem C7_load_isolation_witness :
    load_plugins_from_path [modOkA, modRaising, modOkB] (some regEmpty)
        regSingletonInst =
      load_plugins_from_path [modOkA, modOkB] (some regEmpty) regSingletonInst
    ∧ load_plugins_from_path [modOkA, modRaising, modOkB] (some regEmpty)
        regSingletonInst = ⟨[featA, featB]⟩ := by
  constructor
  · exact (C7_load_isolation (H := Nat)).2.1 [modOkA] [modOkB] modRaising
      (some regEmpty) regSingletonInst rfl
  · decide

/-- C8: with an explicit registry instance, the `PluginRegistry` name
injected into the plugin namespace is a constructor returning that very
instance, the loader registers every returned descriptor into that same
instance, and the process-wide singleton plays no role in the result. -/
theorem C8_registry_injection {H : Type} [DecidableEq H]
    (mod : PluginModule H) (r s : PluginRegistry H)
    (descs : List (FeatureDesc H))
    (hexec : mod.exec_raises = false)
    (hgf : mod.get_features = .returns descs) :
    (injectedPluginRegistry (some r) s () = r)
    ∧ (load_single_plugin mod (some r) s = registerFeatures r descs)
    ∧ (∀ s2 : PluginRegistry H, load_single_plugin mod (some r) s2 =
        load_single_plugin mod (some r) s) := by
  refine ⟨rfl, ?_, ?_⟩
  · unfold load_single_plugin load_single_plugin_on actualRegistry
    rw [hexec, hgf]
    rfl
  · intro s2
    rfl

/-- Witness for C8: loading `modMixed` against the explicit empty registry
folds its descriptors into that registry, whatever the singleton holds. -/
theorem C8_registry_injection_witness :
    (injectedPluginRegistry (some regEmpty) regSingletonInst () = regEmpty)
    ∧ load_single_plugin modMixed (some regEmpty) regSingletonInst =
        registerFeatures regEmpty [.ok featA, .registerRaises, .ok featB] := by
  have h := C8_registry_injection modMixed regEmpty regSingletonInst
    [.ok featA, .registerRaises, .ok featB] rfl rfl
  exact ⟨h.1, h.2.1⟩

/-- C9: a reconciliation with a truthy (non-empty) priority list sorts the
very list returned by `get_all_plugins`, so the registry's stored order is
the sorted order afterwards (with the state-check metadata writes applied to
the stored objects); concretely, the registry holding `[x, y]` ends up
storing `[y, x]` after a priority-`["x"]` reconcile — not its original
contents. -/
theorem C9_registry_reorder_side_effect {H : Type} (m : FeatureManager H)
    (reg : PluginRegistry H) (st : Option PluginState) (pl : List String)
    (hreg : m.registry = some reg) (hpl : pl ≠ []) :
    ((m.refresh st (some pl)).registry =
      some ⟨(sortByKey (get_sort_key pl) reg.plugins).map (stateCheck st)⟩)
    ∧ ((mgrXY.refresh none (some ["x"])).registry = some ⟨[featY, featX]⟩
      ∧ (some (⟨[featY, featX]⟩ : PluginRegistry Nat) ≠
          some (⟨[featX, featY]⟩ : PluginRegistry Nat))) := by
  refine ⟨?_, by decide, by decide⟩
  rcases pl with _ | ⟨a, as⟩
  · exact absurd rfl hpl
  · rw [refresh_registry_of_some m reg st _ hreg]
    rfl

/-- Witness for C9: the reorder equation evaluated on the concrete registry
`[x, y]` with priority `["x"]`. -/
theorem C9_registry_reorder_side_effect_witness :
    (mgrXY.refresh none (some ["x"])).registry =
      some ⟨(sortByKey (get_sort_key ["x"]) [featX, featY]).map
        (stateCheck none)⟩ := by
  exact (C9_registry_reorder_side_effect mgrXY ⟨[featX, featY]⟩ none ["x"]
    rfl (by decide)).1

/-- C10: `refresh` first clears the active set and rebuilds it from the
attached registry alone — the result is independent of whatever the active
set held (in particular of features added through the manager's `register`
path), every rebuilt feature is a state-checked registry plugin, and with no
registry attached the active set is left empty. -/
theorem C10_refresh_from_registry_only {H : Type} :
    (∀ (m m2 : FeatureManager H) (st : Option PluginState)
        (pl : Option (List String)), m.registry = m2.registry →
      (m.refresh st pl).features = (m2.refresh st pl).features)
    ∧ (∀ (m : FeatureManager H) (st : Option PluginState)
        (pl : Option (List String)), m.registry = none →
      (m.refresh st pl).features = [])
    ∧ (∀ (m : FeatureManager H) (g : Feature H) (st : Option PluginState)
        (pl : Option (List String)),
      ((m.register g).refresh st pl).features = (m.refresh st pl).features)
    ∧ (∀ (m : FeatureManager H) (reg : PluginRegistry H)
        (st : Option PluginState) (pl : Option (List String)),
        m.registry = some reg →
      ∀ f ∈ (m.refresh st pl).features, ∃ p ∈ reg.plugins, f = stateCheck st p) := by
  have part1 : ∀ (m m2 : FeatureManager H) (st : Option PluginState)
      (pl : Option (List String)), m.registry = m2.registry →
      (m.refresh st pl).features = (m2.refresh st pl).features := by
    intro m m2 st pl h
    rcases hr : m.registry with _ | reg
    · have hr2 : m2.registry = none := h.symm.trans hr
      rw [refresh_of_registry_none m st pl hr,
        refresh_of_registry_none m2 st pl hr2]
    · have hr2 : m2.registry = some reg := h.symm.trans hr
      rw [refresh_features_of_some m reg st pl hr,
        refresh_features_of_some m2 reg st pl hr2]
  refine ⟨part1, ?_, ?_, ?_⟩
  · intro m st pl h
    rw [refresh_of_registry_none m st pl h]
  · intro m g st pl
    exact part1 (m.register g) m st pl rfl
  · intro m reg st pl hreg f hf
    exact mem_refresh_features hreg hf

/-- Witness for C10: a core feature registered directly on the manager is
gone after the next refresh, which rebuilds from the registry; with no
registry attached the active set comes out empty. -/
theorem C10_refresh_from_registry_only_witness :
    ((FeatureManager.register ⟨[], some ⟨[featX]⟩⟩ featY).refresh none
      none).features = [featX]
    ∧ ((⟨[featY], none⟩ : FeatureManager Nat).refresh none none).features
      = [] := by
  constructor
  · have h := (C10_refresh_from_registry_only (H := Nat)).2.2.1
      ⟨[], some ⟨[featX]⟩⟩ featY none none
    exact h.trans (by decide)
  · exact (C10_refresh_from_registry_only (H := Nat)).2.1 ⟨[featY], none⟩
      none none rfl

end DocNexus
